import Mathlib

/-!
Verification of the tagmatter text/metadata reconciliation engine.

The engine (src/main.ts) synchronizes inline hashtag markers in a document
with a tag list stored in a leading metadata block.  Documents are modelled
as lists of characters (`Str`); each TypeScript function of the engine is
translated below into a Lean function of the same name:

  parseFrontmatter        (main.ts 123-140)  delimiter-based block split
  getExistingTags         (main.ts 142-175)  tag-section reader
  removeTags              (main.ts 177-208)  tag-section remover
  buildFrontmatterWithTags(main.ts 210-260)  tag-section writer
  extractInlineTags       (main.ts 262-282)  inline-tag extractor
  arraysEqual             (main.ts 284-290)  position-wise list comparison
  syncTagsToFrontmatter   (main.ts 61-121)   orchestrator

JavaScript-specific behaviour is translated explicitly:
the frontmatter regex with its non-greedy group becomes a search for the
first occurrence of the closing delimiter; the tag regex with a global flag
becomes a left-to-right scan consuming maximal character-class runs; string
sort uses lexicographic comparison of code points (all engine tags are
ASCII); the only whitespace characters relevant to the inputs considered
are the ASCII ones handled by `isWs`.
-/

/-- A document / string, modelled as its list of characters. -/
abbrev Str := List Char

/-- Characters of a Lean string literal, used to write concrete documents. -/
def strL (s : String) : Str := s.data

/-- ASCII whitespace, as matched by JavaScript `trim` and `\s` on the
character set the engine manipulates. -/
def isWs (c : Char) : Bool :=
  c = ' ' || c = '\t' || c = '\n' || c = '\r' || c = '\x0b' || c = '\x0c'

/-- Characters matched by the tag regex character class `[\w\-]`. -/
def isTagChar (c : Char) : Bool :=
  ('a' ≤ c && c ≤ 'z') || ('A' ≤ c && c ≤ 'Z') || ('0' ≤ c && c ≤ '9') ||
  c = '_' || c = '-'

/-- Quote characters removed by `replace(/['"]/g, '')` (codepoint 39 is the
single quote). -/
def isQuote (c : Char) : Bool := c = '"' || c.toNat = 39

/-- JavaScript `String.prototype.trim` on ASCII input. -/
def trim (s : Str) : Str :=
  ((s.dropWhile isWs).reverse.dropWhile isWs).reverse

/-- JavaScript `split('\n')`: always returns at least one (possibly empty) line. -/
def splitNl : Str → List Str
  | [] => [[]]
  | c :: rest =>
    if c = '\n' then [] :: splitNl rest
    else
      match splitNl rest with
      | [] => [[c]]
      | l :: ls => (c :: l) :: ls

/-- JavaScript `join('\n')`: intercalates a newline between lines. -/
def joinNl : List Str → Str
  | [] => []
  | [l] => l
  | l :: ls => l ++ '\n' :: joinNl ls

/-- Index of the first occurrence of `pat` as a contiguous sublist of `s`. -/
def findSub (pat : Str) : Str → Option Nat
  | [] => if List.isPrefixOf pat [] then some 0 else none
  | c :: rest =>
    if List.isPrefixOf pat (c :: rest) then some 0
    else (findSub pat rest).map (· + 1)

/-- Index of the last occurrence of character `ch` in `s`. -/
def lastIdxOf (ch : Char) (s : Str) : Option Nat :=
  (findSub [ch] s.reverse).map (fun j => s.length - 1 - j)

/-- JavaScript `split(',')` on a single line. -/
def splitComma : Str → List Str
  | [] => [[]]
  | c :: rest =>
    if c = ',' then [] :: splitComma rest
    else
      match splitComma rest with
      | [] => [[c]]
      | l :: ls => (c :: l) :: ls

/-- JavaScript `replace(/['"]/g, '')`: drop every quote character. -/
def removeQuotes (s : Str) : Str := s.filter (fun c => !isQuote c)

/-- main.ts 123-140.  The regex `^---\n([\s\S]*?)\n---\n([\s\S]*)$` anchored
at the start with a non-greedy group: the document parses as a block iff it
starts with `---\n` and the remainder contains `\n---\n`; the metadata text
runs up to the first such occurrence.  Returns
(frontmatterText, bodyText, hasFrontmatter). -/
def parseFrontmatter (content : Str) : Str × Str × Bool :=
  if List.isPrefixOf (strL "---\n") content then
    match findSub (strL "\n---\n") (content.drop 4) with
    | some i => ((content.drop 4).take i, (content.drop 4).drop (i + 5), true)
    | none => ([], content, false)
  else ([], content, false)

/-- One attempt of the inline-array regex `tags:\s*\[(.*)\]` at the current
position: literal `tags:`, maximal whitespace run, `[`, then a greedy
capture running to the last `]` of the line. -/
def tryInlineAt (l : Str) : Option Str :=
  if List.isPrefixOf (strL "tags:") l then
    match (l.drop 5).dropWhile isWs with
    | '[' :: inner => (lastIdxOf ']' inner).map (fun j => inner.take j)
    | _ => none
  else none

/-- Unanchored search of the inline-array regex over a line: leftmost
position at which `tryInlineAt` succeeds. -/
def inlineArrayCapture : Str → Option Str
  | [] => none
  | c :: rest =>
    match tryInlineAt (c :: rest) with
    | some cap => some cap
    | none => inlineArrayCapture rest

/-- main.ts 149-172, the line loop of `getExistingTags`, with the
in-tags-section flag and the accumulated tags.  An inline-array match
returns immediately, discarding the accumulator, exactly as the early
`return` in the source does. -/
def getExistingTagsAux : Bool → List Str → List Str → List Str
  | _, acc, [] => acc
  | inSec, acc, l :: rest =>
    let t := trim l
    if List.isPrefixOf (strL "tags:") t then
      match inlineArrayCapture t with
      | some cap =>
        ((splitComma cap).map (fun x => removeQuotes (trim x))).filter
          (fun x => x.length > 0)
      | none => getExistingTagsAux true acc rest
    else if inSec then
      if List.isPrefixOf ['-'] t then
        let tag := trim (t.drop 1)
        if tag.isEmpty then getExistingTagsAux true acc rest
        else getExistingTagsAux true (acc ++ [tag]) rest
      else if !t.isEmpty && !(List.isPrefixOf [' '] t) &&
          !(List.isPrefixOf ['-'] t) then
        acc
      else getExistingTagsAux true acc rest
    else getExistingTagsAux false acc rest

/-- main.ts 142-175. -/
def getExistingTags (fm : Str) : List Str :=
  if fm.isEmpty then [] else getExistingTagsAux false [] (splitNl fm)

/-- main.ts 182-205, the line loop of `removeTags`. -/
def removeTagsAux : Bool → List Str → List Str
  | _, [] => []
  | inSec, l :: rest =>
    let t := trim l
    if List.isPrefixOf (strL "tags:") t then removeTagsAux true rest
    else if inSec && List.isPrefixOf ['-'] t then removeTagsAux true rest
    else
      let inSec' := if inSec && !t.isEmpty && !(List.isPrefixOf ['-'] t) &&
          !(List.isPrefixOf [' '] t) then false else inSec
      if inSec' then removeTagsAux inSec' rest
      else l :: removeTagsAux inSec' rest

/-- main.ts 177-208.  Note: the joined result carries no trailing newline. -/
def removeTags (fm : Str) : Str := joinNl (removeTagsAux false (splitNl fm))

/-- A serialized list item `  - tag` (main.ts 213, 232, 255). -/
def itemLine (tag : Str) : Str := strL "  - " ++ tag

/-- main.ts 223-251, the line loop of `buildFrontmatterWithTags`; returns
the produced lines and the `tagsInserted` flag. -/
def buildAux (tags : List Str) : Bool → Bool → List Str → List Str × Bool
  | _, inserted, [] => ([], inserted)
  | inSec, inserted, l :: rest =>
    let t := trim l
    if List.isPrefixOf (strL "tags:") t then
      let r := buildAux tags true true rest
      (strL "tags:" :: tags.map itemLine ++ r.1, r.2)
    else if inSec && List.isPrefixOf ['-'] t then
      buildAux tags true inserted rest
    else
      let inSec' := if inSec && !t.isEmpty && !(List.isPrefixOf ['-'] t) &&
          !(List.isPrefixOf [' '] t) then false else inSec
      let r := buildAux tags inSec' inserted rest
      if inSec' then r else (l :: r.1, r.2)

/-- main.ts 210-260.  In every branch the result ends with a newline. -/
def buildFrontmatterWithTags (fm : Str) (tags : List Str) (had : Bool) : Str :=
  if !had || fm.isEmpty then
    strL "tags:\n" ++ joinNl (tags.map itemLine) ++ strL "\n"
  else
    let r := buildAux tags false false (splitNl fm)
    if r.2 then joinNl r.1 ++ strL "\n"
    else joinNl (strL "tags:" :: tags.map itemLine ++ r.1) ++ strL "\n"

/-- The normalization applied to each captured candidate (main.ts 272-275):
lowercase it when the flag is set. -/
def normTag (lc : Bool) (tok : Str) : Str :=
  if lc then tok.map Char.toLower else tok

/-- main.ts 269-278, the matcher loop of the global regex `#([\w\-]+)`,
written as a character-at-a-time automaton so that it is structurally
recursive.  The state is `none` outside a candidate match and `some acc`
when `acc` has been captured since the most recent `#`; a character
outside the class ends the capture (emitting it when non-empty, exactly
the regex's "one or more" requirement) and is itself reconsidered as a
potential new `#` marker, matching how `exec` resumes at `lastIndex`. -/
def scanTagsAux (lc : Bool) : Option Str → Str → List Str
  | none, [] => []
  | some acc, [] => if acc.isEmpty then [] else [normTag lc acc]
  | none, c :: rest =>
    if c = '#' then scanTagsAux lc (some []) rest
    else scanTagsAux lc none rest
  | some acc, c :: rest =>
    if isTagChar c then scanTagsAux lc (some (acc ++ [c])) rest
    else
      let cont := if c = '#' then scanTagsAux lc (some []) rest
        else scanTagsAux lc none rest
      if acc.isEmpty then cont else normTag lc acc :: cont

/-- The list of (normalized, not yet deduplicated) candidates produced by
the matcher loop on a document. -/
def scanTags (lc : Bool) (s : Str) : List Str := scanTagsAux lc none s

/-- JavaScript `Array.from(new Set(tags))` (main.ts 281): deduplication keeping the
first occurrence of each element, in first-seen order. -/
def dedupeFirstAux (seen : List Str) : List Str → List Str
  | [] => []
  | x :: xs =>
    if seen.contains x then dedupeFirstAux seen xs
    else x :: dedupeFirstAux (seen ++ [x]) xs

/-- Deduplication keeping first occurrences. -/
def dedupeFirst (l : List Str) : List Str := dedupeFirstAux [] l

/-- main.ts 262-282. -/
def extractInlineTags (lc : Bool) (content : Str) : List Str :=
  dedupeFirst (scanTags lc content)

/-- Lexicographic comparison of code points: the order used by the default
JavaScript `Array.prototype.sort` comparator on strings. -/
def strLe : Str → Str → Bool
  | [], _ => true
  | _ :: _, [] => false
  | a :: as, b :: bs =>
    if a < b then true else if b < a then false else strLe as bs

/-- Insertion step of the sort. -/
def insertStr (x : Str) : List Str → List Str
  | [] => [x]
  | y :: ys => if strLe x y then x :: y :: ys else y :: insertStr x ys

/-- JavaScript `[...l].sort()`: sorted-ascending rearrangement (main.ts 80-81). -/
def sortStr : List Str → List Str
  | [] => []
  | x :: xs => insertStr x (sortStr xs)

/-- main.ts 284-290: same length and same value at every position. -/
def arraysEqual : List Str → List Str → Bool
  | [], [] => true
  | a :: as, b :: bs => a == b && arraysEqual as bs
  | _, _ => false

/-- Specification-side helper for the amended reading of the tag-section
reader: the tag contributed by a single line while inside the section
(`none` for blank lines and for items whose content trims to nothing). -/
def itemTagOf (l : Str) : Option Str :=
  let t := trim l
  if List.isPrefixOf ['-'] t then
    let tag := trim (t.drop 1)
    if tag.isEmpty then none else some tag
  else none

/-- Specification-side helper: the tags contributed by a run of in-section
lines. -/
def tagsOfItems (ls : List Str) : List Str := ls.filterMap itemTagOf

/-- main.ts 61-121, the pure core of `syncTagsToFrontmatter`: `none` is the
NO_CHANGE outcome (no `vault.modify` call), `some d` is a rewrite to `d`. -/
def syncTagsToFrontmatter (lc : Bool) (content : Str) : Option Str :=
  let inlineTags := extractInlineTags lc content
  let p := parseFrontmatter content
  let fmText := p.1
  let bodyText := p.2.1
  let hasFM := p.2.2
  let existingTags := getExistingTags fmText
  let sortedInline := sortStr inlineTags
  let sortedExisting := sortStr existingTags
  if arraysEqual sortedExisting sortedInline then none
  else if inlineTags.length = 0 then
    if hasFM then
      let newFM := removeTags fmText
      if (trim newFM).isEmpty then some bodyText
      else some (strL "---\n" ++ newFM ++ strL "---\n" ++ bodyText)
    else none
  else
    let newFM := buildFrontmatterWithTags fmText sortedInline hasFM
    if hasFM then some (strL "---\n" ++ newFM ++ strL "---\n" ++ bodyText)
    else some (strL "---\n" ++ newFM ++ strL "---\n" ++ content)

/-! ### Closed evaluations -/

/-- C1: the spec's idempotence property fails on the code.  For the
document below — a block holding a title field that ends in `#` plus a tag
list, and a body with no inline tags — the first sync takes the removal
path and, because `removeTags` produces no trailing newline, glues the
kept title line onto the closing delimiter.  The merged line `title: x#---`
now matches the inline-tag pattern (tag `---`) and no longer parses as a
block, so the second sync rewrites again instead of returning NO_CHANGE. -/
theorem sync_not_idempotent :
    syncTagsToFrontmatter true (strL "---\ntitle: x#\ntags:\n  - a\n---\nbody") =
      some (strL "---\ntitle: x#---\nbody") ∧
    syncTagsToFrontmatter true (strL "---\ntitle: x#---\nbody") =
      some (strL "---\ntags:\n  - ---\n---\n---\ntitle: x#---\nbody") := by
  constructor <;> decide

/-- C4 (code bug evaluation): removing the tag list from a block that also
holds a title field produces `---\ntitle: x---\nbody`.  The kept field line
is merged with the closing delimiter — it survives neither as a complete
line nor inside a parseable metadata block (the second conjunct shows the
output no longer parses as having a block at all).  `removeTags` omits the
trailing newline that `buildFrontmatterWithTags` appends for the same
reassembly template. -/
theorem sync_removal_merges_field_line :
    syncTagsToFrontmatter true (strL "---\ntitle: x\ntags:\n  - a\n---\nbody") =
      some (strL "---\ntitle: x---\nbody") ∧
    (parseFrontmatter (strL "---\ntitle: x---\nbody")).2.2 = false := by
  constructor <;> decide

/-- C2 (counterexample): on a block recording the duplicate tag list
`a, a` over a body containing exactly the inline tag `a`, the sorted
deduplicated existing tags coincide with the sorted deduplicated inline
tags, yet sync rewrites the document instead of returning NO_CHANGE: the
code never dedupes the recorded list before the comparison. -/
theorem sync_duplicates_not_nochange :
    sortStr (dedupeFirst (getExistingTags
        (parseFrontmatter (strL "---\ntags:\n  - a\n  - a\n---\n#a")).1)) =
      sortStr (dedupeFirst
        (extractInlineTags true (strL "---\ntags:\n  - a\n  - a\n---\n#a"))) ∧
    syncTagsToFrontmatter true (strL "---\ntags:\n  - a\n  - a\n---\n#a") =
      some (strL "---\ntags:\n  - a\n---\n#a") := by
  constructor <;> decide

/-- C5 (counterexample): a document made of two adjacent delimiter lines
with nothing between them is reported as having no metadata block: the
pattern needs a newline-delimiter-newline occurrence after the opening
line, so at least one (possibly empty) line must sit between the
delimiters. -/
theorem parse_adjacent_delimiters_no_block :
    parseFrontmatter (strL "---\n---\nbody") =
      ([], strL "---\n---\nbody", false) := by
  decide

/-- C7 (counterexample): inside the tags section, the indented non-item
line `  x` ends the section — the code tests the trimmed line, so
indentation is invisible to it — hence the item after it is never read;
removing that line makes the item visible again. -/
theorem reader_indented_line_ends_section :
    getExistingTags (strL "tags:\n  x\n  - a") = [] ∧
    getExistingTags (strL "tags:\n  - a") = [strL "a"] := by
  constructor <;> decide

/-- C8 (counterexample): a blank line inside the tags section does not
pass through the Remove transform; it is dropped together with the
section. -/
theorem remover_drops_blank_line_in_section :
    removeTags (strL "tags:\n  - a\n\ntitle: x") = strL "title: x" ∧
    removeTags (strL "tags:\n  - a\n\ntitle: x") ≠ strL "\ntitle: x" := by
  constructor <;> decide

/-! ### Basic lemmas about the embedded functions -/

/-- The comparison `arraysEqual` decides list equality. -/
theorem arraysEqual_iff : ∀ a b : List Str, arraysEqual a b = true ↔ a = b
  | [], [] => by simp [arraysEqual]
  | [], _ :: _ => by simp [arraysEqual]
  | _ :: _, [] => by simp [arraysEqual]
  | a :: as, b :: bs => by
    simp [arraysEqual, arraysEqual_iff as bs]

/-- Inserting into a sorted list never yields the empty list. -/
theorem insertStr_ne_nil (x : Str) : ∀ l, insertStr x l ≠ []
  | [] => by simp [insertStr]
  | y :: ys => by
    simp only [insertStr]
    split <;> simp

/-- Sorting a non-empty list yields a non-empty list. -/
theorem sortStr_ne_nil : ∀ {l : List Str}, l ≠ [] → sortStr l ≠ []
  | [], h => absurd rfl h
  | x :: xs, _ => by simpa [sortStr] using insertStr_ne_nil x (sortStr xs)

/-- When no block is recognized, the parser returns the whole document as
body and an empty metadata text. -/
theorem parseFrontmatter_of_not_block (c : Str) :
    (parseFrontmatter c).2.2 = false → parseFrontmatter c = ([], c, false) := by
  unfold parseFrontmatter
  split
  · split
    · intro h; simp at h
    · intro _; rfl
  · intro _; rfl

/-! ### C2: the NO_CHANGE condition -/

/-- C2 (amended): sync returns NO_CHANGE exactly when the sorted — but not
deduplicated — sequence of tags read from the existing metadata block
equals, position by position, the sorted deduplicated inline tags.  The
recorded tags enter the comparison verbatim, so duplicates among them do
make the comparison fail. -/
theorem sync_nochange_iff (lc : Bool) (content : Str) :
    syncTagsToFrontmatter lc content = none ↔
      sortStr (getExistingTags (parseFrontmatter content).1) =
        sortStr (extractInlineTags lc content) := by
  unfold syncTagsToFrontmatter
  dsimp only []
  split
  · rename_i h1
    exact iff_of_true rfl ((arraysEqual_iff _ _).1 h1)
  · rename_i h1
    have hne : ¬(sortStr (getExistingTags (parseFrontmatter content).1) =
        sortStr (extractInlineTags lc content)) := fun he =>
      h1 ((arraysEqual_iff _ _).2 he)
    split
    · rename_i h2
      split
      · split
        · exact iff_of_false (by simp) hne
        · exact iff_of_false (by simp) hne
      · rename_i h3
        exfalso
        apply hne
        have hfm : (parseFrontmatter content).2.2 = false := by
          revert h3; cases (parseFrontmatter content).2.2 <;> simp
        have h4 : extractInlineTags lc content = [] :=
          List.length_eq_zero.mp h2
        rw [parseFrontmatter_of_not_block content hfm, h4]
        rfl
    · exact iff_of_false (by split <;> simp) hne

/-- Witness for C2's amended claim at a concrete input: a document whose
recorded tags `[a, a]` sort-compare unequal to the inline tags `[a]`, so
sync does not return NO_CHANGE. -/
theorem sync_nochange_iff_witness :
    ¬(syncTagsToFrontmatter true (strL "---\ntags:\n  - a\n  - a\n---\n#a") =
      none) :=
  fun h =>
    absurd ((sync_nochange_iff true
      (strL "---\ntags:\n  - a\n  - a\n---\n#a")).1 h) (by decide)

/-! ### C6: the body is never altered -/

/-- C6: whenever sync produces a new document string, the parsed body text
(the whole original document when no block existed) is its final segment,
byte for byte: every rewrite only prepends material in front of it. -/
theorem sync_preserves_body (lc : Bool) (content out : Str)
    (h : syncTagsToFrontmatter lc content = some out) :
    ∃ pre, out = pre ++ (parseFrontmatter content).2.1 := by
  unfold syncTagsToFrontmatter at h
  dsimp only [] at h
  split at h
  · exact absurd h (by simp)
  · split at h
    · split at h
      · split at h
        · exact ⟨[], by simpa using h.symm⟩
        · refine ⟨strL "---\n" ++ removeTags (parseFrontmatter content).1 ++
            strL "---\n", ?_⟩
          injection h with h'
          rw [← h']
      · exact absurd h (by simp)
    · split at h
      · refine ⟨strL "---\n" ++ buildFrontmatterWithTags
          (parseFrontmatter content).1
          (sortStr (extractInlineTags lc content))
          (parseFrontmatter content).2.2 ++ strL "---\n", ?_⟩
        injection h with h'
        rw [← h']
      · rename_i h3
        have hfm : (parseFrontmatter content).2.2 = false := by
          revert h3; cases (parseFrontmatter content).2.2 <;> simp
        have hp := parseFrontmatter_of_not_block content hfm
        refine ⟨strL "---\n" ++ buildFrontmatterWithTags
          (parseFrontmatter content).1
          (sortStr (extractInlineTags lc content))
          (parseFrontmatter content).2.2 ++ strL "---\n", ?_⟩
        injection h with h'
        rw [← h', hp]

/-- Witness for C6 at a concrete input: syncing the blockless document
`#a` prepends a new block in front of the body, which is the whole
original document. -/
theorem sync_preserves_body_witness :
    ∃ pre, strL "---\ntags:\n  - a\n---\n#a" =
      pre ++ (parseFrontmatter (strL "#a")).2.1 :=
  sync_preserves_body true (strL "#a") (strL "---\ntags:\n  - a\n---\n#a")
    (by decide)

/-! ### Line-classification helpers -/

/-- An empty trimmed line is not a tag-key line. -/
theorem key_nil : List.isPrefixOf (strL "tags:") ([] : Str) = false := by decide

/-- An empty trimmed line is not a list item. -/
theorem dash_nil : List.isPrefixOf ['-'] ([] : Str) = false := by decide

/-- A line whose trimmed form starts with the item marker cannot start
with the tag key. -/
theorem not_key_of_dash {t : Str} (h : List.isPrefixOf ['-'] t = true) :
    List.isPrefixOf (strL "tags:") t = false := by
  cases t with
  | nil => simp [List.isPrefixOf] at h
  | cons c rest =>
    have hc : ('-' == c) = true := by
      by_contra hcc
      simp only [List.isPrefixOf, Bool.and_eq_true] at h
      exact hcc h.1
    have : c = '-' := (eq_of_beq hc).symm
    subst this
    simp [strL, List.isPrefixOf]

/-- The head of a `dropWhile` result falsifies the predicate. -/
theorem dropWhile_head_not (p : Char → Bool) (l : Str) (c : Char) (t : Str)
    (h : l.dropWhile p = c :: t) : p c = false := by
  induction l with
  | nil => simp at h
  | cons x xs ih =>
    by_cases hx : p x
    · rw [List.dropWhile_cons_of_pos hx] at h; exact ih h
    · rw [List.dropWhile_cons_of_neg hx] at h
      injection h with h1 _
      rw [← h1]
      simpa using hx

/-- Dropping a trailing run (via reverse) keeps the head of a non-empty
list, when anything is left at all. -/
theorem rdrop_head (p : Char → Bool) (x : Char) (xs : Str) :
    ((x :: xs).reverse.dropWhile p).reverse = [] ∨
    ∃ t, ((x :: xs).reverse.dropWhile p).reverse = x :: t := by
  rw [List.reverse_cons, List.dropWhile_append]
  split
  · by_cases hx : p x
    · left; simp [List.dropWhile, hx]
    · right; exact ⟨[], by simp [List.dropWhile, hx]⟩
  · right
    refine ⟨(List.dropWhile p xs.reverse).reverse, ?_⟩
    simp

/-- A trimmed line never starts with a space: the Remove/Reader state
machines test `startsWith(' ')` on the already-trimmed line, so the test
can never fire. -/
theorem trim_not_starts_space (s : Str) :
    List.isPrefixOf [' '] (trim s) = false := by
  unfold trim
  cases hu : s.dropWhile isWs with
  | nil => simp [List.isPrefixOf]
  | cons x xs =>
    have hx : isWs x = false := dropWhile_head_not isWs s x xs hu
    rcases rdrop_head isWs x xs with h | ⟨t, h⟩
    · rw [h]; decide
    · rw [h]
      have hsx : (' ' == x) = false := by
        cases hxx : (' ' == x)
        · rfl
        · have h2 := eq_of_beq hxx
          rw [← h2] at hx
          exact absurd hx (by decide)
      simp [List.isPrefixOf, hsx]

/-- A non-empty trimmed line has a false `isEmpty`. -/
theorem isEmpty_false_of_ne {s : Str} (h : s ≠ []) : s.isEmpty = false := by
  cases s
  · exact absurd rfl h
  · rfl

/-! ### C3: deleting a tags-only block -/

/-- Inside the tags section, the Remove transform drops every item line
and every blank line to the end of the input. -/
theorem removeTagsAux_true_of_items : ∀ ls : List Str,
    (∀ l ∈ ls, trim l = [] ∨ List.isPrefixOf ['-'] (trim l) = true) →
    removeTagsAux true ls = []
  | [], _ => rfl
  | l :: ls, h => by
    have ih := removeTagsAux_true_of_items ls
      (fun x hx => h x (List.mem_cons_of_mem l hx))
    rcases h l (List.mem_cons_self l ls) with hb | hd
    · simp only [removeTagsAux, hb]
      simp [key_nil, dash_nil, ih]
    · simp only [removeTagsAux]
      rw [not_key_of_dash hd]
      simp [hd, ih]

/-- C3: a document whose metadata block consists of the `tags:` key line
followed only by list items and blank lines, recording at least one tag,
and whose text has no inline tags, syncs to the parsed body alone — the
delimiters and the block disappear entirely. -/
theorem sync_deletes_tags_only_block (lc : Bool) (doc fm body kl : Str)
    (rest : List Str)
    (h1 : parseFrontmatter doc = (fm, body, true))
    (h2 : extractInlineTags lc doc = [])
    (h3 : splitNl fm = kl :: rest)
    (h4 : trim kl = strL "tags:")
    (h5 : ∀ l ∈ rest, trim l = [] ∨ List.isPrefixOf ['-'] (trim l) = true)
    (h6 : getExistingTags fm ≠ []) :
    syncTagsToFrontmatter lc doc = some body := by
  have hrm : removeTags fm = [] := by
    unfold removeTags
    rw [h3]
    simp only [removeTagsAux]
    rw [h4]
    have hk : List.isPrefixOf (strL "tags:") (strL "tags:") = true := by decide
    simp [hk, removeTagsAux_true_of_items rest h5, joinNl]
  have hae : arraysEqual (sortStr (getExistingTags fm)) (sortStr []) = false := by
    cases hsE : sortStr (getExistingTags fm) with
    | nil => exact absurd hsE (sortStr_ne_nil h6)
    | cons a as => simp [sortStr, arraysEqual]
  unfold syncTagsToFrontmatter
  dsimp only []
  rw [h1, h2]
  simp [hae, hrm, trim]

/-- Witness for C3: a block holding only `tags:` with one item, over the
body `hello` with no hashtags, syncs to `hello`. -/
theorem sync_deletes_tags_only_block_witness :
    syncTagsToFrontmatter true (strL "---\ntags:\n  - a\n---\nhello") =
      some (strL "hello") :=
  sync_deletes_tags_only_block true (strL "---\ntags:\n  - a\n---\nhello")
    (strL "tags:\n  - a") (strL "hello") (strL "tags:") [strL "  - a"]
    (by decide) (by decide) (by decide) (by decide) (by decide) (by decide)

/-! ### C7: where the reader's tags section ends -/

/-- Inside the tags section the reader accumulates exactly the item tags of
the in-section run, then stops at the first non-empty line that is neither
an item nor a tag-key line — whatever its indentation — and ignores
everything after it. -/
theorem getExistingTagsAux_section :
    ∀ (mid : List Str) (acc : List Str) (stop : Str) (rest : List Str),
    (∀ l ∈ mid, trim l = [] ∨ List.isPrefixOf ['-'] (trim l) = true) →
    trim stop ≠ [] →
    List.isPrefixOf ['-'] (trim stop) = false →
    List.isPrefixOf (strL "tags:") (trim stop) = false →
    getExistingTagsAux true acc (mid ++ stop :: rest) = acc ++ tagsOfItems mid
  | [], acc, stop, rest, _, hs1, hs2, hs3 => by
    simp only [List.nil_append, getExistingTagsAux]
    rw [hs3]
    have hsp := trim_not_starts_space stop
    have hne := isEmpty_false_of_ne hs1
    simp [hs2, hsp, hne, tagsOfItems]
  | l :: mid, acc, stop, rest, hmid, hs1, hs2, hs3 => by
    have hmid' := fun x hx => hmid x (List.mem_cons_of_mem l hx)
    rcases hmid l (List.mem_cons_self l mid) with hb | hd
    · have ih := getExistingTagsAux_section mid acc stop rest hmid' hs1 hs2 hs3
      simp only [List.cons_append, getExistingTagsAux]
      rw [hb]
      simp only [key_nil, dash_nil]
      simp [ih, tagsOfItems, itemTagOf, hb]
    · by_cases he : trim ((trim l).tail) = []
      · have ih := getExistingTagsAux_section mid acc stop rest hmid' hs1 hs2 hs3
        simp only [List.cons_append, getExistingTagsAux]
        rw [not_key_of_dash hd]
        simp [hd, he, ih, tagsOfItems, itemTagOf, List.drop_one]
      · have ih := getExistingTagsAux_section mid (acc ++ [trim ((trim l).tail)])
          stop rest hmid' hs1 hs2 hs3
        simp only [List.cons_append, getExistingTagsAux]
        rw [not_key_of_dash hd]
        simp [hd, he, ih, tagsOfItems, itemTagOf, List.drop_one]

/-- C7 (amended): while inside the tags section, the section ends exactly
at the first non-empty line that is neither a list item nor a tag-key
line, regardless of indentation — the reader inspects the trimmed line,
so an indented non-item line also ends the section (and contributes no
tag); the tags read are exactly the item tags before that line. -/
theorem reader_section_ends (fm kl stop : Str) (mid rest : List Str)
    (h3 : splitNl fm = kl :: (mid ++ stop :: rest))
    (h4 : trim kl = strL "tags:")
    (hmid : ∀ l ∈ mid, trim l = [] ∨ List.isPrefixOf ['-'] (trim l) = true)
    (hs1 : trim stop ≠ [])
    (hs2 : List.isPrefixOf ['-'] (trim stop) = false)
    (hs3 : List.isPrefixOf (strL "tags:") (trim stop) = false) :
    getExistingTags fm = tagsOfItems mid := by
  have hfm : fm.isEmpty = false := by
    cases hf : fm with
    | nil =>
      rw [hf] at h3
      simp only [splitNl] at h3
      injection h3 with _ h3b
      exact absurd h3b.symm (by simp)
    | cons c cs => rfl
  unfold getExistingTags
  rw [hfm]
  simp only [Bool.false_eq_true, if_false]
  rw [h3]
  simp only [getExistingTagsAux]
  rw [h4]
  have hk : List.isPrefixOf (strL "tags:") (strL "tags:") = true := by decide
  have hinl : inlineArrayCapture (strL "tags:") = none := by decide
  simp [hk, hinl, getExistingTagsAux_section mid [] stop rest hmid hs1 hs2 hs3]

/-- Witness for C7's amended claim: in `tags:` / `  - a` / blank /
`  x` / `  - b`, the section's items are `a` (the blank line stays inside
the section), the indented line `  x` ends the section, and `  - b` after
it is ignored. -/
theorem reader_section_ends_witness :
    getExistingTags (strL "tags:\n  - a\n\n  x\n  - b") =
      tagsOfItems [strL "  - a", strL ""] :=
  reader_section_ends (strL "tags:\n  - a\n\n  x\n  - b") (strL "tags:")
    (strL "  x") [strL "  - a", strL ""] [strL "  - b"]
    (by decide) (by decide) (by decide) (by decide) (by decide) (by decide)

/-! ### C8: what the Remove transform keeps and drops -/

/-- Outside the tags section, lines that are not tag-key lines pass
through the Remove transform unchanged. -/
theorem removeTagsAux_false_of_no_keys : ∀ ls : List Str,
    (∀ l ∈ ls, List.isPrefixOf (strL "tags:") (trim l) = false) →
    removeTagsAux false ls = ls
  | [], _ => rfl
  | l :: ls, h => by
    have ih := removeTagsAux_false_of_no_keys ls
      (fun x hx => h x (List.mem_cons_of_mem l hx))
    simp only [removeTagsAux]
    rw [h l (List.mem_cons_self l ls)]
    simp [ih]

/-- Outside the tags section, non-key lines are emitted before whatever
the machine produces for the remaining lines. -/
theorem removeTagsAux_false_prepend : ∀ (pre : List Str) (X : List Str),
    (∀ l ∈ pre, List.isPrefixOf (strL "tags:") (trim l) = false) →
    removeTagsAux false (pre ++ X) = pre ++ removeTagsAux false X
  | [], _, _ => by simp
  | l :: pre, X, h => by
    have ih := removeTagsAux_false_prepend pre X
      (fun x hx => h x (List.mem_cons_of_mem l hx))
    simp only [List.cons_append, removeTagsAux]
    rw [h l (List.mem_cons_self l pre)]
    simp [ih]

/-- Inside the tags section, the Remove transform drops item lines and
blank lines, leaving the rest of the input to be processed in-section. -/
theorem removeTagsAux_true_skips_items : ∀ (mid : List Str) (Y : List Str),
    (∀ l ∈ mid, trim l = [] ∨ List.isPrefixOf ['-'] (trim l) = true) →
    removeTagsAux true (mid ++ Y) = removeTagsAux true Y
  | [], _, _ => by simp
  | l :: mid, Y, h => by
    have ih := removeTagsAux_true_skips_items mid Y
      (fun x hx => h x (List.mem_cons_of_mem l hx))
    rcases h l (List.mem_cons_self l mid) with hb | hd
    · simp only [List.cons_append, removeTagsAux, hb]
      simp [key_nil, dash_nil, ih]
    · simp only [List.cons_append, removeTagsAux]
      rw [not_key_of_dash hd]
      simp [hd, ih]

/-- C8 (amended): the Remove transform drops the tag-key line, the item
lines of its section and the blank lines inside the section; the section
ends at the first non-empty line that is neither an item nor another
tag-key line — indentation does not matter — and that line, together with
every following line (none of which reopens the section), passes through
unchanged in order, as do all lines before the key line. -/
theorem remover_drops_section (fm kl stop : Str) (pre mid rest : List Str)
    (h3 : splitNl fm = pre ++ kl :: (mid ++ stop :: rest))
    (hpre : ∀ l ∈ pre, List.isPrefixOf (strL "tags:") (trim l) = false)
    (hkl : List.isPrefixOf (strL "tags:") (trim kl) = true)
    (hmid : ∀ l ∈ mid, trim l = [] ∨ List.isPrefixOf ['-'] (trim l) = true)
    (hs1 : trim stop ≠ [])
    (hs2 : List.isPrefixOf ['-'] (trim stop) = false)
    (hs3 : List.isPrefixOf (strL "tags:") (trim stop) = false)
    (hrest : ∀ l ∈ rest, List.isPrefixOf (strL "tags:") (trim l) = false) :
    removeTags fm = joinNl (pre ++ stop :: rest) := by
  unfold removeTags
  rw [h3, removeTagsAux_false_prepend pre _ hpre]
  congr 1
  congr 1
  simp only [removeTagsAux]
  rw [hkl]
  simp only [if_true]
  rw [removeTagsAux_true_skips_items mid _ hmid]
  simp only [removeTagsAux]
  rw [hs3]
  have hsp := trim_not_starts_space stop
  have hne := isEmpty_false_of_ne hs1
  simp [hs2, hsp, hne, removeTagsAux_false_of_no_keys rest hrest]

/-- Witness for C8's amended claim: `title: a` before the section passes
through, the item and the blank line inside the section are dropped, the
indented terminator `  x` is kept, and the item line after it also passes
through. -/
theorem remover_drops_section_witness :
    removeTags (strL "title: a\ntags:\n  - q\n\n  x\n  - y") =
      joinNl [strL "title: a", strL "  x", strL "  - y"] :=
  remover_drops_section (strL "title: a\ntags:\n  - q\n\n  x\n  - y")
    (strL "tags:") (strL "  x") [strL "title: a"] [strL "  - q", strL ""]
    [strL "  - y"]
    (by decide) (by decide) (by decide) (by decide) (by decide) (by decide)
    (by decide) (by decide)

/-! ### C5: when a document has a metadata block -/

/-- A successful `findSub` yields a decomposition around the pattern. -/
theorem findSub_some (pat : Str) : ∀ (s : Str) (i : Nat),
    findSub pat s = some i →
    ∃ pre suf, s = pre ++ pat ++ suf ∧ pre.length = i
  | [], i, h => by
    simp only [findSub] at h
    split at h
    · rename_i hp
      injection h with h0
      have hpat : pat = [] := by
        cases pat with
        | nil => rfl
        | cons a as => simp [List.isPrefixOf] at hp
      exact ⟨[], [], by simp [hpat], by simp [← h0]⟩
    · exact absurd h (by simp)
  | c :: rest, i, h => by
    simp only [findSub] at h
    split at h
    · rename_i hp
      injection h with h0
      obtain ⟨t, ht⟩ := List.isPrefixOf_iff_prefix.1 hp
      exact ⟨[], t, by simp [← ht], by simp [← h0]⟩
    · cases hf : findSub pat rest with
      | none => rw [hf] at h; simp at h
      | some j =>
        rw [hf] at h
        simp only [Option.map] at h
        injection h with h0
        obtain ⟨pre, suf, hs, hl⟩ := findSub_some pat rest j hf
        exact ⟨c :: pre, suf, by simp [hs], by simp [hl, ← h0]⟩

/-- When the pattern is a prefix, `findSub` reports position zero. -/
theorem findSub_of_isPrefix (pat s : Str)
    (h : List.isPrefixOf pat s = true) : findSub pat s = some 0 := by
  cases s with
  | nil => simp [findSub, h]
  | cons c rest => simp [findSub, h]

/-- A pattern occurring anywhere in the string is found by `findSub`. -/
theorem findSub_exists (pat : Str) : ∀ (pre suf : Str),
    ∃ i, findSub pat (pre ++ (pat ++ suf)) = some i
  | [], suf => ⟨0, by
      simpa using findSub_of_isPrefix pat (pat ++ suf)
        ( List.isPrefixOf_iff_prefix.2 (List.prefix_append pat suf))⟩
  | c :: pre, suf => by
    obtain ⟨i, hi⟩ := findSub_exists pat pre suf
    by_cases hp : List.isPrefixOf pat (c :: (pre ++ (pat ++ suf))) = true
    · exact ⟨0, by simp [findSub, hp]⟩
    · exact ⟨i + 1, by simp [findSub, hp, hi]⟩

/-- C5 (amended): the parser reports a metadata block exactly when the
document starts with the delimiter line and the remainder contains a
newline-delimiter-newline occurrence — that is, a delimiter line, then
one or more lines (a single possibly-empty line at minimum), then a
delimiter line.  Two adjacent delimiter lines with nothing between them do
not form a block.  When no block is recognized, the body is the whole
document and the metadata text is empty. -/
theorem parse_block_iff (content : Str) :
    ((parseFrontmatter content).2.2 = true ↔
      ∃ M B, content = strL "---\n" ++ M ++ strL "\n---\n" ++ B) ∧
    ((parseFrontmatter content).2.2 = false →
      parseFrontmatter content = ([], content, false)) := by
  refine ⟨⟨?_, ?_⟩, parseFrontmatter_of_not_block content⟩
  · intro h
    unfold parseFrontmatter at h
    split at h
    · rename_i hpre
      split at h
      · rename_i i hf
        obtain ⟨pre, suf, hs, _⟩ := findSub_some _ _ _ hf
        obtain ⟨t, ht⟩ := List.isPrefixOf_iff_prefix.1 hpre
        have h4 : content.drop 4 = t := by
          rw [← ht]
          exact List.drop_left' (by decide)
        have h5 : t = pre ++ (strL "\n---\n" ++ suf) := by
          rw [← h4]
          simpa using hs
        refine ⟨pre, suf, ?_⟩
        rw [← ht, h5]
        simp [List.append_assoc]
      · simp at h
    · simp at h
  · rintro ⟨M, B, rfl⟩
    have hassoc : strL "---\n" ++ M ++ strL "\n---\n" ++ B =
        strL "---\n" ++ (M ++ (strL "\n---\n" ++ B)) := by
      simp [List.append_assoc]
    rw [hassoc]
    unfold parseFrontmatter
    have hpre : List.isPrefixOf (strL "---\n")
        (strL "---\n" ++ (M ++ (strL "\n---\n" ++ B))) = true :=
      List.isPrefixOf_iff_prefix.2 (List.prefix_append _ _)
    rw [if_pos hpre]
    have hdrop : (strL "---\n" ++ (M ++ (strL "\n---\n" ++ B))).drop 4 =
        M ++ (strL "\n---\n" ++ B) := List.drop_left' (by decide)
    rw [hdrop]
    obtain ⟨i, hi⟩ := findSub_exists (strL "\n---\n") M B
    rw [hi]

/-- Witness for C5 at a concrete input: `---`, one line `x`, `---`, body
`b` decomposes as a metadata block. -/
theorem parse_block_iff_witness :
    ∃ M B, strL "---\nx\n---\nb" =
      strL "---\n" ++ M ++ strL "\n---\n" ++ B :=
  (parse_block_iff (strL "---\nx\n---\nb")).1.mp (by decide)

/-! ### Characterization of the inline-tag scanner -/

/-- Dropping a prefix by a predicate never lengthens a list. -/
theorem length_dropWhile_le_self (p : Char → Bool) (l : Str) :
    (l.dropWhile p).length ≤ l.length := by
  conv_rhs => rw [← List.takeWhile_append_dropWhile p l]
  rw [List.length_append]
  exact Nat.le_add_left _ _

/-- The automaton in capture state produces the maximal run of tag
characters (appended to what was already captured) and then continues in
scan state after the run. -/
theorem scanTagsAux_some (lc : Bool) : ∀ (rest acc : Str),
    scanTagsAux lc (some acc) rest =
      if acc ++ rest.takeWhile isTagChar = [] then
        scanTagsAux lc none (rest.dropWhile isTagChar)
      else normTag lc (acc ++ rest.takeWhile isTagChar) ::
        scanTagsAux lc none (rest.dropWhile isTagChar)
  | [], acc => by
    simp only [scanTagsAux, List.takeWhile_nil, List.dropWhile_nil,
      List.append_nil]
    cases acc with
    | nil => simp [scanTagsAux]
    | cons a as => simp [scanTagsAux, List.isEmpty]
  | c :: rest, acc => by
    by_cases hc : isTagChar c
    · have ih := scanTagsAux_some lc rest (acc ++ [c])
      simp only [scanTagsAux, hc, if_true]
      rw [ih]
      rw [List.takeWhile_cons_of_pos hc, List.dropWhile_cons_of_pos hc]
      simp
    · rw [List.takeWhile_cons_of_neg hc, List.dropWhile_cons_of_neg hc]
      simp only [scanTagsAux, hc]
      cases acc with
      | nil => simp [scanTagsAux]
      | cons a as => simp [scanTagsAux, List.isEmpty, normTag]

/-- Unfolding: scanning from a `#` captures the maximal following run. -/
theorem scanTags_cons_hash (lc : Bool) (rest : Str) :
    scanTags lc ('#' :: rest) =
      if rest.takeWhile isTagChar = [] then scanTags lc rest
      else normTag lc (rest.takeWhile isTagChar) ::
        scanTags lc (rest.dropWhile isTagChar) := by
  have h0 : scanTags lc ('#' :: rest) = scanTagsAux lc (some []) rest := by
    simp [scanTags, scanTagsAux]
  rw [h0, scanTagsAux_some lc rest []]
  by_cases ht : rest.takeWhile isTagChar = []
  · have hd : rest.dropWhile isTagChar = rest := by
      have := List.takeWhile_append_dropWhile isTagChar rest
      rwa [ht, List.nil_append] at this
    simp [ht, hd, scanTags]
  · simp [ht, scanTags]

/-- Unfolding: characters other than `#` are skipped in scan state. -/
theorem scanTags_cons_of_ne (lc : Bool) {c : Char} (hc : c ≠ '#')
    (rest : Str) : scanTags lc (c :: rest) = scanTags lc rest := by
  simp [scanTags, scanTagsAux, hc]

/-! ### C9: normalization before deduplication -/

/-- With the lowercase flag, the scanner produces exactly the case-folded
images of the raw candidates, in the same order. -/
theorem scanTags_true_map : ∀ s : Str,
    scanTags true s = (scanTags false s).map (List.map Char.toLower)
  | [] => rfl
  | c :: rest => by
    by_cases hc : c = '#'
    · subst hc
      rw [scanTags_cons_hash, scanTags_cons_hash]
      by_cases ht : rest.takeWhile isTagChar = []
      · simp [ht, scanTags_true_map rest]
      · simp [ht, scanTags_true_map (rest.dropWhile isTagChar), normTag]
    · rw [scanTags_cons_of_ne true hc, scanTags_cons_of_ne false hc]
      exact scanTags_true_map rest
termination_by s => s.length
decreasing_by
  · simp
  · simp only [List.length_cons]
    exact Nat.lt_succ_of_le (length_dropWhile_le_self isTagChar rest)
  · simp

/-- C9: extracting from `#Tag #tag #TAG` yields the single tag `tag` with
lowercasing on, and the three distinct tags `Tag`, `tag`, `TAG` with it
off; in general, extraction with lowercasing equals deduplication applied
to the case-folded candidates — normalization happens before dedup, and
dedup sees only post-normalization values. -/
theorem extract_normalizes_before_dedup :
    extractInlineTags true (strL "#Tag #tag #TAG") = [strL "tag"] ∧
    extractInlineTags false (strL "#Tag #tag #TAG") =
      [strL "Tag", strL "tag", strL "TAG"] ∧
    ∀ content : Str,
      extractInlineTags true content =
        dedupeFirst ((scanTags false content).map (List.map Char.toLower)) := by
  refine ⟨by decide, by decide, fun content => ?_⟩
  unfold extractInlineTags
  rw [scanTags_true_map]

/-! ### C10: extraction sees the metadata block too -/

/-- A maximal run stops at a character falsifying the predicate, wherever
the list continues after it. -/
theorem takeWhile_append_break (p : Char → Bool) (c : Char)
    (hc : p c = false) : ∀ (u v : Str),
    (u ++ c :: v).takeWhile p = u.takeWhile p
  | [], v => by simp [List.takeWhile_cons, hc]
  | x :: u, v => by
    by_cases hx : p x
    · simp [List.takeWhile_cons, hx, takeWhile_append_break p c hc u v]
    · simp [List.takeWhile_cons, hx]

/-- Dropping a maximal run stops at a character falsifying the predicate,
wherever the list continues after it. -/
theorem dropWhile_append_break (p : Char → Bool) (c : Char)
    (hc : p c = false) : ∀ (u v : Str),
    (u ++ c :: v).dropWhile p = u.dropWhile p ++ c :: v
  | [], v => by simp [List.dropWhile_cons, hc]
  | x :: u, v => by
    by_cases hx : p x
    · simp [List.dropWhile_cons, hx, dropWhile_append_break p c hc u v]
    · simp [List.dropWhile_cons, hx]

/-- The scanner distributes over concatenation at a separator character
that can neither continue a tag run nor start a match. -/
theorem scanTags_append (lc : Bool) (c : Char) (hc1 : isTagChar c = false)
    (hc2 : c ≠ '#') : ∀ (a b : Str),
    scanTags lc (a ++ c :: b) = scanTags lc a ++ scanTags lc b
  | [], b => by
    rw [List.nil_append, scanTags_cons_of_ne lc hc2]
    rfl
  | x :: a, b => by
    by_cases hx : x = '#'
    · subst hx
      rw [List.cons_append, scanTags_cons_hash, scanTags_cons_hash,
        takeWhile_append_break isTagChar c hc1 a b,
        dropWhile_append_break isTagChar c hc1 a b]
      by_cases ht : a.takeWhile isTagChar = []
      · simp [ht, scanTags_append lc c hc1 hc2 a b]
      · simp [ht, scanTags_append lc c hc1 hc2 (a.dropWhile isTagChar) b]
    · rw [List.cons_append, scanTags_cons_of_ne lc hx,
        scanTags_cons_of_ne lc hx]
      exact scanTags_append lc c hc1 hc2 a b
termination_by a _ => a.length
decreasing_by
  · simp
  · simp only [List.length_cons]
    exact Nat.lt_succ_of_le (length_dropWhile_le_self isTagChar _)
  · simp

/-- C10: extraction scans the entire document string, metadata block
included.  First conjunct (for every block-shaped document): the
candidates are exactly those of the metadata text followed by those of the
body, deduplicated together — a `#`-token inside a frontmatter line
participates exactly as if it appeared in the body.  The remaining
conjuncts evaluate a document whose only hashtag sits inside another
field's value: it is extracted, and sync writes it into the rebuilt tag
list. -/
theorem extract_scans_whole_document :
    (∀ (lc : Bool) (M B : Str),
      extractInlineTags lc (strL "---\n" ++ M ++ strL "\n---\n" ++ B) =
        dedupeFirst (scanTags lc M ++ scanTags lc B)) ∧
    extractInlineTags true (strL "---\ntitle: #secret\n---\nhello") =
      [strL "secret"] ∧
    syncTagsToFrontmatter true (strL "---\ntitle: #secret\n---\nhello") =
      some (strL "---\ntags:\n  - secret\ntitle: #secret\n---\nhello") := by
  refine ⟨fun lc M B => ?_, by decide, by decide⟩
  unfold extractInlineTags
  congr 1
  have hb : isTagChar '\n' = false := by decide
  have hh : ('\n' : Char) ≠ '#' := by decide
  have e1 : strL "---\n" ++ M ++ strL "\n---\n" ++ B =
      strL "---" ++ '\n' :: (M ++ '\n' :: (strL "---" ++ '\n' :: B)) := by
    simp [strL, List.append_assoc]
  rw [e1, scanTags_append lc '\n' hb hh, scanTags_append lc '\n' hb hh,
    scanTags_append lc '\n' hb hh]
  have h3 : scanTags lc (strL "---") = [] := by cases lc <;> rfl
  rw [h3]
  simp
